import Mathlib

/-!
Shallow embedding of the Markdown post-processing pipeline of `get-md`
(`src/main.rs`): the fenced-code-block-aware table compactor
(`compact_markdown`, `fence_marker`, `compact_table_row`) and the
link/image destination resolver (`resolve_markdown_urls`,
`split_link_destination`, `find_link_close_paren`).

Strings are modelled as `List Char`; Rust byte indices are modelled as
character positions (all index arithmetic in the source adds lengths of
one-byte ASCII characters such as `)` and `](`, so the two views agree
position-for-position).
-/

abbrev Str := List Char

/-- Rust `char::is_whitespace` (the Unicode `White_Space` property). -/
def isRustWhitespace (c : Char) : Bool :=
  let n := c.val
  (0x9 ≤ n && n ≤ 0xD) || n = 0x20 || n = 0x85 || n = 0xA0 || n = 0x1680 ||
  (0x2000 ≤ n && n ≤ 0x200A) || n = 0x2028 || n = 0x2029 || n = 0x202F ||
  n = 0x205F || n = 0x3000

/-- Rust `char::is_ascii_whitespace`: space, tab, newline, form feed, carriage return. -/
def isAsciiWhitespace (c : Char) : Bool :=
  c = ' ' || c = '\t' || c = '\n' || c = '\x0c' || c = '\r'

/-- Rust `str::trim_start`. -/
def trimStart (s : Str) : Str := s.dropWhile isRustWhitespace

/-- Rust `str::trim_end`. -/
def trimEnd (s : Str) : Str := (s.reverse.dropWhile isRustWhitespace).reverse

/-- Rust `str::trim`. -/
def trim (s : Str) : Str := trimEnd (trimStart s)

/-- Worker for `rustLines`; `acc` holds the current line, reversed. A `'\r'`
just before the `'\n'` (i.e. at the head of `acc`) is stripped. -/
def rustLinesAux : Str → Str → List Str
  | [], acc => if acc = [] then [] else [acc.reverse]
  | c :: rest, acc =>
      if c = '\n' then
        (if acc.head? = some '\r' then acc.tail.reverse else acc.reverse) ::
          rustLinesAux rest []
      else rustLinesAux rest (c :: acc)

/-- Rust `str::lines`: split at `'\n'`, strip a `'\r'` that immediately precedes
a `'\n'`, and do not emit a final empty line for a trailing line terminator. -/
def rustLines (s : Str) : List Str := rustLinesAux s []

/-- Split at every occurrence of a separator character (Rust `str::split`,
which always yields at least one piece). `acc` holds the current piece, reversed. -/
def splitCharAux (sep : Char) : Str → Str → List Str
  | [], acc => [acc.reverse]
  | c :: rest, acc =>
      if c = sep then acc.reverse :: splitCharAux sep rest []
      else splitCharAux sep rest (c :: acc)

/-- Rust `str::split(sep)`. -/
def splitChar (sep : Char) (s : Str) : List Str := splitCharAux sep s []

/-- Rust `Vec::<String>::join("\n")`. -/
def joinLines : List Str → Str
  | [] => []
  | l :: ls => l ++ (if ls = [] then [] else '\n' :: joinLines ls)

/-- Rust `Vec::<String>::join(" | ")`. -/
def joinCells : List Str → Str
  | [] => []
  | l :: ls => l ++ (if ls = [] then [] else ' ' :: '|' :: ' ' :: joinCells ls)

/-- `fence_marker` from `src/main.rs`: a leading run (length ≥ 3) of backticks
or tildes. -/
def fence_marker (line : Str) : Option (Char × Nat) :=
  match line with
  | [] => none
  | marker :: _ =>
      if marker ≠ '`' ∧ marker ≠ '~' then none
      else
        let len := (line.takeWhile (· = marker)).length
        if len ≥ 3 then some (marker, len) else none

/-- One cell of a table row: trim, and rewrite separator cells
(all `-`/`:` after trimming) to `-`, `:-`, `-:` or `:-:`
(the closure inside `compact_table_row` in `src/main.rs`). -/
def cellCompact (cell : Str) : Str :=
  let t := trim cell
  if t ≠ [] ∧ t.all (fun c => c = '-' || c = ':') then
    (if t.head? = some ':' then [':'] else []) ++ ['-'] ++
    (if t.getLast? = some ':' then [':'] else [])
  else t

/-- `compact_table_row` from `src/main.rs`. The argument is a trimmed line that
starts and ends with `'|'` and has length > 1. -/
def compact_table_row (row : Str) : Str :=
  let inner := (row.drop 1).dropLast
  let cells := (splitChar '|' inner).map cellCompact
  '|' :: ' ' :: (joinCells cells ++ [' ', '|'])

/-- The fence state threaded through `compact_markdown`:
`in_fenced_code_block`, `fence_char`, `fence_len`. -/
structure FenceState where
  active : Bool
  ch : Char
  len : Nat
deriving Repr, DecidableEq

/-- Initial fence state of `compact_markdown`. -/
def fenceInit : FenceState := ⟨false, '\x00', 0⟩

/-- The per-line body of the closure inside `compact_markdown`. The
`fenceResult` option models the two early `return line` statements of the
fence-handling block (open a fence, or close the active fence); `none` means
the block fell through. The Rust byte-length test `trimmed.len() > 1`
coincides with the character-length test here because the trimmed line is
required to start and end with the one-byte character `'|'`. -/
def compactStep (st : FenceState) (line : Str) : FenceState × Str :=
  let fenceResult : Option (FenceState × Str) :=
    match fence_marker (trimStart line) with
    | some (marker, markerLen) =>
        if !st.active then some (⟨true, marker, markerLen⟩, line)
        else if marker = st.ch ∧ markerLen ≥ st.len then some (fenceInit, line)
        else none
    | none => none
  match fenceResult with
  | some r => r
  | none =>
      if st.active then (st, line)
      else
        let t := trim line
        if t.head? = some '|' ∧ t.getLast? = some '|' ∧ t.length > 1 then
          (st, compact_table_row t)
        else (st, line)

/-- `compact_markdown`'s fold of `compactStep` over the lines. -/
def compactLines : FenceState → List Str → List Str
  | _, [] => []
  | st, l :: ls =>
      let r := compactStep st l
      r.2 :: compactLines r.1 ls

/-- `compact_markdown` from `src/main.rs`. -/
def compact_markdown (md : Str) : Str :=
  joinLines (compactLines fenceInit (rustLines md))

/-- The bare-destination scan of `split_link_destination` in `src/main.rs`:
the position of the first ASCII-whitespace character that is not escaped by
an odd run of preceding backslashes. `i` is the current position, `run` the
current backslash run length. -/
def bareSplitIdx : Str → Nat → Nat → Option Nat
  | [], _, _ => none
  | c :: rest, i, run =>
      if c = '\\' then bareSplitIdx rest (i + 1) (run + 1)
      else if isAsciiWhitespace c ∧ run % 2 ≠ 1 then some i
      else bareSplitIdx rest (i + 1) 0

/-- The bare (non-angle-bracket) branch of `split_link_destination`. -/
def bareSplit (inside : Str) : Str × Str × Bool :=
  match bareSplitIdx inside 0 0 with
  | some i => (inside.take i, inside.drop i, false)
  | none => (inside, [], false)

/-- Rust `str::find(char)`: position of the first occurrence of `target`. -/
def findChar (target : Char) : Str → Option Nat
  | [] => none
  | c :: rest => if c = target then some 0 else (findChar target rest).map (· + 1)

/-- `split_link_destination` from `src/main.rs`. -/
def split_link_destination (inside : Str) : Str × Str × Bool :=
  if inside.head? = some '<' then
    match findChar '>' inside.tail with
    | some close => (inside.tail.take close, inside.tail.drop (close + 1), true)
    | none => bareSplit inside
  else bareSplit inside

/-- The scan loop of `find_link_close_paren` in `src/main.rs`. `i` is the
current position, `depth` the parenthesis nesting depth (starts at 1),
`run` the backslash run length, `tq` the active title quote, `sawDest` /
`sawSep` the `saw_dest_non_ws` / `saw_sep_ws` flags. -/
def findCloseAux : Str → Nat → Nat → Nat → Option Char → Bool → Bool → Option Nat
  | [], _, _, _, _, _, _ => none
  | c :: rest, i, depth, run, tq, sawDest, sawSep =>
      if c = '\\' then findCloseAux rest (i + 1) depth (run + 1) tq sawDest sawSep
      else
        let escaped := run % 2 = 1
        match tq with
        | some q =>
            findCloseAux rest (i + 1) depth 0
              (if c = q ∧ ¬escaped then none else some q) sawDest sawSep
        | none =>
            if depth = 1 then
              if isAsciiWhitespace c then
                findCloseAux rest (i + 1) depth 0 none sawDest
                  (if sawDest then true else sawSep)
              else if sawSep ∧ (c = '"' ∨ c = '\'') then
                findCloseAux rest (i + 1) depth 0 (some c) sawDest sawSep
              else if c = '(' ∧ ¬escaped then
                findCloseAux rest (i + 1) (depth + 1) 0 none true false
              else if c = ')' ∧ ¬escaped then some i
              else findCloseAux rest (i + 1) depth 0 none true false
            else
              if c = '(' ∧ ¬escaped then
                findCloseAux rest (i + 1) (depth + 1) 0 tq sawDest sawSep
              else if c = ')' ∧ ¬escaped then
                if depth - 1 = 0 then some i
                else findCloseAux rest (i + 1) (depth - 1) 0 tq sawDest sawSep
              else findCloseAux rest (i + 1) depth 0 tq sawDest sawSep

/-- `find_link_close_paren` from `src/main.rs`. -/
def find_link_close_paren (s : Str) : Option Nat :=
  findCloseAux s 0 1 0 none false false

/-- Rust `str::find("](")`: position of the first occurrence of `](`. -/
def findLinkOpen : Str → Option Nat
  | [] => none
  | c :: rest =>
      if c = ']' ∧ rest.head? = some '(' then some 0
      else (findLinkOpen rest).map (· + 1)

/-- The scan loop of `resolve_markdown_urls` in `src/main.rs`, parameterized
by the URL-join primitive `join` of the already-parsed base (`Url::join`;
`none` models `Err`). `fuel` bounds the number of iterations: each iteration
either stops or recurses on a remainder shorter by at least 3 characters, so
`md.length + 1` iterations always suffice. -/
def resolveLoopF : Nat → (Str → Option Str) → Str → Str
  | 0, _, md => md
  | fuel + 1, join, md =>
      match findLinkOpen md with
      | none => md
      | some rel =>
          let pre := md.take (rel + 2)
          let part := md.drop (rel + 2)
          match find_link_close_paren part with
          | none => pre ++ part
          | some close =>
              let inside := part.take close
              let s := split_link_destination inside
              let url := s.1
              let title := s.2.1
              let useAngle := s.2.2
              let dest : Str :=
                if url ≠ [] then
                  match join url with
                  | some resolved =>
                      if useAngle then '<' :: (resolved ++ ['>']) else resolved
                  | none =>
                      if useAngle then '<' :: (url ++ ['>']) else url
                else if useAngle then ['<', '>'] else []
              pre ++ dest ++ title ++ ')' :: resolveLoopF fuel join (part.drop (close + 1))

/-- The scan loop of `resolve_markdown_urls` with adequate fuel
(`resolveLoopF_fuel_adequate` below proves any fuel above `md.length` gives
this same result, so the loop never takes the fuel-exhausted branch). -/
def resolveLoop (join : Str → Option Str) (md : Str) : Str :=
  resolveLoopF (md.length + 1) join md

/-- `resolve_markdown_urls` from `src/main.rs`, parameterized by the external
`Url` collaborator: `parse base_url` yields the join primitive of the parsed
base, or `none` when `base_url` does not parse as an absolute URL. -/
def resolve_markdown_urls (parse : Str → Option (Str → Option Str))
    (md base_url : Str) : Str :=
  match parse base_url with
  | none => md
  | some join => resolveLoop join md

/-- The directory part of a URL path: everything up to and including the
last `'/'`. -/
def dirname (p : Str) : Str := (p.reverse.dropWhile (· ≠ '/')).reverse

/-- Modelled from the spec: the absolute-URL parser of the external `Url`
collaborator (§6), which is not part of this repository. It accepts
`http(s)://host[/path]` and yields the origin (scheme and host) and the
path (defaulted to `/`). -/
def specParseUrl (s : Str) : Option (Str × Str) :=
  let viaScheme := fun (scheme : Str) =>
    if scheme.isPrefixOf s then
      let rest := s.drop scheme.length
      let host := rest.takeWhile (· ≠ '/')
      let path := rest.dropWhile (· ≠ '/')
      if host = [] then none
      else some (scheme ++ host, if path = [] then ['/'] else path)
    else none
  match viaScheme "https://".toList with
  | some r => some r
  | none => viaScheme "http://".toList

/-- Modelled from the spec: the RFC 3986-style URL-join primitive of the
external `Url` collaborator (§6), restricted to the reference forms the
properties below exercise: empty, fragment-only, root-relative, absolute
`http(s)`, `./`-relative and plain relative references. -/
def specJoinUrl (origin path ref : Str) : Option Str :=
  if ref = [] then some (origin ++ path)
  else if ref.head? = some '#' then some (origin ++ path ++ ref)
  else if ref.head? = some '/' then some (origin ++ ref)
  else if ("https://".toList.isPrefixOf ref) ∨ ("http://".toList.isPrefixOf ref) then
    some ref
  else
    let r := if ref.take 2 = ['.', '/'] then ref.drop 2 else ref
    some (origin ++ dirname path ++ r)

/-- Modelled from the spec: the external `Url` collaborator as consumed by
`resolve_markdown_urls` — parse the base, then join references against it. -/
def url_parse (s : Str) : Option (Str → Option Str) :=
  (specParseUrl s).map (fun b => specJoinUrl b.1 b.2)

/-- Whether the string contains a `'\r'` immediately followed by `'\n'`. -/
def hasCRLF : Str → Bool
  | [] => false
  | c :: rest => (c = '\r' && rest.head? = some '\n') || hasCRLF rest

/-- Whether every `'\r'` in the string is immediately followed by `'\n'`
(i.e. every carriage return is part of a CRLF line ending). -/
def crOK : Str → Bool
  | [] => true
  | c :: rest => (c ≠ '\r' || rest.head? = some '\n') && crOK rest

/-- Whether the line would open (or close) a backtick fence: its
left-trimmed form starts with a run of at least three backticks. -/
def opensBacktickFence (l : Str) : Bool :=
  match fence_marker (trimStart l) with
  | some p => p.1 = '`'
  | none => false

/-- Stated from the spec's words (§4.3): the plain balanced-parenthesis
scan — `(` increments the depth, `)` decrements it, and the answer is the
position where the depth reaches 0. -/
def specDepthScan : Str → Nat → Nat → Option Nat
  | [], _, _ => none
  | c :: rest, i, depth =>
      if c = '(' then specDepthScan rest (i + 1) (depth + 1)
      else if c = ')' then
        if depth = 1 then some i else specDepthScan rest (i + 1) (depth - 1)
      else specDepthScan rest (i + 1) depth

/-! ## Helper lemmas -/

theorem findChar_eq_some_of_first (t : Char) :
    ∀ (l : Str) (i : Nat) (h1 : i < l.length),
      l.get ⟨i, h1⟩ = t → (∀ j (hj : j < i), l.get ⟨j, hj.trans h1⟩ ≠ t) →
      findChar t l = some i := by
  intro l
  induction l with
  | nil => intro i h1; simp at h1
  | cons c rest ih =>
    intro i h1 h2 h3
    cases i with
    | zero =>
        simp only [List.get] at h2
        simp [findChar, h2]
    | succ k =>
        have hc : c ≠ t := by
          have := h3 0 (Nat.succ_pos k)
          simpa using this
        have hrec : findChar t rest = some k := by
          refine ih k (by simpa using h1) (by simpa using h2) ?_
          intro j hj
          have := h3 (j + 1) (by omega)
          simpa using this
        simp [findChar, hc, hrec]

theorem findChar_eq_none_of_not_mem (t : Char) :
    ∀ l : Str, t ∉ l → findChar t l = none := by
  intro l
  induction l with
  | nil => intro _; rfl
  | cons c rest ih =>
    intro h
    have hc : c ≠ t := fun hct => h (hct ▸ List.mem_cons_self c rest)
    have : t ∉ rest := fun ht => h (List.mem_cons_of_mem c ht)
    simp [findChar, hc, ih this]

theorem bareSplitIdx_ge :
    ∀ (s : Str) (i run j : Nat), bareSplitIdx s i run = some j → i ≤ j := by
  intro s
  induction s with
  | nil => intro i run j h; simp [bareSplitIdx] at h
  | cons c rest ih =>
    intro i run j h
    rw [bareSplitIdx] at h
    by_cases hb : c = '\\'
    · rw [if_pos hb] at h
      have := ih (i + 1) (run + 1) j h
      omega
    · rw [if_neg hb] at h
      by_cases hw : isAsciiWhitespace c ∧ run % 2 ≠ 1
      · rw [if_pos hw] at h
        exact Option.some.inj h ▸ Nat.le_refl i
      · rw [if_neg hw] at h
        have := ih (i + 1) 0 j h
        omega

/-! ## C1: invalid base URL makes the resolver a whole-document no-op -/

/-- Claim C1: for every Markdown string `md` and every `base_url` that does not
parse as an absolute URL (the external parser yields `none`),
`resolve_markdown_urls` returns `md` unchanged — a whole-document no-op,
never partially applied. -/
theorem resolve_invalid_base_noop (parse : Str → Option (Str → Option Str))
    (md base_url : Str) (h : parse base_url = none) :
    resolve_markdown_urls parse md base_url = md := by
  unfold resolve_markdown_urls
  rw [h]

theorem resolve_invalid_base_noop_witness :
    url_parse ("not a url".toList) = none ∧
    resolve_markdown_urls url_parse ("[link](./path)".toList) ("not a url".toList)
      = "[link](./path)".toList :=
  ⟨rfl, resolve_invalid_base_noop url_parse _ _ rfl⟩

/-! ## C5: angle-bracket destination splitting -/

/-- Claim C5 counterexample: with `inside = "<a\>b>"` the splitter cuts at the
FIRST `>` even though it is backslash-escaped, yielding destination `a\` and
trailing `b>` — not destination `a\>b` as the claim ("first unescaped `>`")
predicts. -/
theorem split_angle_escaped_gt_counterexample :
    split_link_destination ("<a\\>b>".toList) = ("a\\".toList, "b>".toList, true) ∧
    ("a\\".toList : Str) ≠ "a\\>b".toList := by
  constructor
  · rfl
  · decide

/-- Claim C5 amended: when the text between `](` and the matched `)` starts with
`<` and contains a `>`, the destination splitter returns as destination
everything up to the first `>` (escaped or not — escaping is not consulted),
everything after that `>` as trailing title text, and
`used_angle_brackets = true`. -/
theorem split_angle_first_gt (afterOpen : Str) (i : Nat)
    (h1 : i < afterOpen.length) (h2 : afterOpen.get ⟨i, h1⟩ = '>')
    (h3 : ∀ j (hj : j < i), afterOpen.get ⟨j, hj.trans h1⟩ ≠ '>') :
    split_link_destination ('<' :: afterOpen)
      = (afterOpen.take i, afterOpen.drop (i + 1), true) := by
  have hf : findChar '>' afterOpen = some i :=
    findChar_eq_some_of_first '>' afterOpen i h1 h2 h3
  simp [split_link_destination, hf]

theorem split_angle_first_gt_witness :
    (2 < ("a\\>b>".toList).length) ∧
    split_link_destination ('<' :: "a\\>b>".toList)
      = (("a\\>b>".toList).take 2, ("a\\>b>".toList).drop 3, true) :=
  ⟨by decide, split_angle_first_gt ("a\\>b>".toList) 2 (by decide) (by decide) (by decide)⟩

/-! ## C6: unterminated link span copies the remainder verbatim -/

/-- Claim C6: if the next `](` occurrence (at `rel`) has no matching closing `)`
in the rest of the text, the scan emits everything from the current point
verbatim — so no link after that point is resolved and no error is raised;
the same holds for the whole `resolve_markdown_urls` call. -/
theorem resolve_unterminated_copies_remainder :
    (∀ (join : Str → Option Str) (md : Str) (rel : Nat),
        findLinkOpen md = some rel →
        find_link_close_paren (md.drop (rel + 2)) = none →
        resolveLoop join md = md) ∧
    (∀ (parse : Str → Option (Str → Option Str)) (md base_url : Str) (rel : Nat),
        findLinkOpen md = some rel →
        find_link_close_paren (md.drop (rel + 2)) = none →
        resolve_markdown_urls parse md base_url = md) := by
  have loop : ∀ (join : Str → Option Str) (md : Str) (rel : Nat),
      findLinkOpen md = some rel →
      find_link_close_paren (md.drop (rel + 2)) = none →
      resolveLoop join md = md := by
    intro join md rel h1 h2
    unfold resolveLoop
    rw [resolveLoopF]
    rw [h1]
    simp only [h2]
    exact List.take_append_drop (rel + 2) md
  refine ⟨loop, ?_⟩
  intro parse md base_url rel h1 h2
  unfold resolve_markdown_urls
  cases hp : parse base_url with
  | none => rfl
  | some join => exact loop join md rel h1 h2

theorem resolve_unterminated_copies_remainder_witness :
    findLinkOpen ("[a](no-close".toList) = some 2 ∧
    find_link_close_paren (("[a](no-close".toList).drop 4) = none ∧
    resolveLoop (fun u => some u) ("[a](no-close".toList) = "[a](no-close".toList ∧
    resolve_markdown_urls url_parse ("[a](no-close".toList)
      ("https://example.com/p".toList) = "[a](no-close".toList :=
  ⟨by decide, by decide,
   resolve_unterminated_copies_remainder.1 _ _ 2 (by decide) (by decide),
   resolve_unterminated_copies_remainder.2 url_parse _ _ 2 (by decide) (by decide)⟩

/-! ## C8: quoted titles make bracket/paren lookalikes inert -/

/-- Claim C8: with a valid base, both destinations are rewritten against the base,
the quoted title — including its `](` lookalike — is emitted byte-for-byte
unchanged, and scanning resumes right after each link's closing `)`. -/
theorem resolve_title_bracket_lookalike :
    resolve_markdown_urls url_parse
        ("[a](./one \"literal ]( marker\")[b](./two)".toList)
        ("https://example.com/docs/en/page.md".toList)
      = ("[a](https://example.com/docs/en/one \"literal ]( marker\")" ++
         "[b](https://example.com/docs/en/two)").toList := by
  rfl

/-! ## C2: balanced-parenthesis depth scanning -/

theorem findCloseAux_clean :
    ∀ (s : Str) (i depth : Nat) (sawDest : Bool),
      1 ≤ depth →
      (∀ c ∈ s, c ≠ '\\' ∧ c ≠ '"' ∧ c ≠ '\'' ∧ isAsciiWhitespace c = false) →
      findCloseAux s i depth 0 none sawDest false = specDepthScan s i depth := by
  intro s
  induction s with
  | nil => intro i depth sawDest _ _; rfl
  | cons c rest ih =>
    intro i depth sawDest hd hcl
    obtain ⟨hbs, hq1, hq2, hws⟩ := hcl c (List.mem_cons_self c rest)
    have hrest : ∀ x ∈ rest, x ≠ '\\' ∧ x ≠ '"' ∧ x ≠ '\'' ∧ isAsciiWhitespace x = false :=
      fun x hx => hcl x (List.mem_cons_of_mem c hx)
    rw [findCloseAux, specDepthScan, if_neg hbs]
    simp only [Nat.zero_mod]
    by_cases h1 : depth = 1
    · subst h1
      rw [if_pos rfl, if_neg (by simp [hws])]
      rw [if_neg (by simp)]
      by_cases hp : c = '('
      · rw [if_pos (by simp [hp]), if_pos hp]
        exact ih (i + 1) 2 true (by omega) hrest
      · rw [if_neg (by simp [hp]), if_neg hp]
        by_cases hcp : c = ')'
        · rw [if_pos (by simp [hcp]), if_pos hcp, if_pos rfl]
        · rw [if_neg (by simp [hcp]), if_neg hcp]
          exact ih (i + 1) 1 true (by omega) hrest
    · rw [if_neg h1]
      by_cases hp : c = '('
      · rw [if_pos (by simp [hp]), if_pos hp]
        exact ih (i + 1) (depth + 1) sawDest (by omega) hrest
      · rw [if_neg (by simp [hp]), if_neg hp]
        by_cases hcp : c = ')'
        · rw [if_pos (by simp [hcp]), if_pos hcp, if_neg h1,
              if_neg (by omega : ¬ depth - 1 = 0)]
          exact ih (i + 1) (depth - 1) sawDest (by omega) hrest
        · rw [if_neg (by simp [hcp]), if_neg hcp]
          exact ih (i + 1) depth sawDest hd hrest

/-- Claim C2: on destination text free of backslashes, quotes and whitespace, the
close-paren scanner is exactly the plain depth scan of the spec — each
unescaped `(` increments the depth, each unescaped `)` decrements it, and
the answer is the position where the depth reaches 0; in particular the
nested-paren destination `/wiki/Rust_(language)` resolves as claimed. -/
theorem find_close_depth_scan_nested_paren :
    (∀ s : Str,
        (∀ c ∈ s, c ≠ '\\' ∧ c ≠ '"' ∧ c ≠ '\'' ∧ isAsciiWhitespace c = false) →
        find_link_close_paren s = specDepthScan s 0 1) ∧
    find_link_close_paren ("/wiki/Rust_(language))".toList) = some 21 ∧
    resolve_markdown_urls url_parse ("[wiki](/wiki/Rust_(language))".toList)
        ("https://example.com/p".toList)
      = "[wiki](https://example.com/wiki/Rust_(language))".toList := by
  refine ⟨?_, by decide, by rfl⟩
  intro s h
  exact findCloseAux_clean s 0 1 false (by omega) h

theorem find_close_depth_scan_nested_paren_witness :
    (∀ c ∈ "/wiki/Rust_(language))".toList,
        c ≠ '\\' ∧ c ≠ '"' ∧ c ≠ '\'' ∧ isAsciiWhitespace c = false) ∧
    find_link_close_paren ("/wiki/Rust_(language))".toList)
      = specDepthScan ("/wiki/Rust_(language))".toList) 0 1 :=
  ⟨by decide, find_close_depth_scan_nested_paren.1 _ (by decide)⟩

/-! ## C9: `<`-prefixed destination with no `>` falls back to the bare rule -/

/-- Claim C9: if the inside text starts with `<` but contains no `>`, the splitter
falls back to the bare-destination rule: the destination keeps its leading
`<` and runs to the first unescaped ASCII whitespace (or to the end),
`used_angle_brackets` is false, and the resolver therefore emits the joined
`<`-prefixed text without re-wrapping it in angle brackets. -/
theorem split_angle_no_gt_bare_fallback :
    (∀ rest : Str, '>' ∉ ('<' :: rest) →
        split_link_destination ('<' :: rest) = bareSplit ('<' :: rest) ∧
        (bareSplit ('<' :: rest)).2.2 = false ∧
        (bareSplit ('<' :: rest)).1.head? = some '<') ∧
    resolveLoop (fun u => some ("R:".toList ++ u)) ("[a](<no-gt here)".toList)
      = "[a](R:<no-gt here)".toList := by
  constructor
  · intro rest h
    have htail : '>' ∉ rest := fun hx => h (List.mem_cons_of_mem _ hx)
    have hn : findChar '>' rest = none := findChar_eq_none_of_not_mem '>' rest htail
    refine ⟨by simp [split_link_destination, hn], ?_, ?_⟩
    · unfold bareSplit
      cases hb : bareSplitIdx ('<' :: rest) 0 0 <;> simp
    · unfold bareSplit
      cases hb : bareSplitIdx ('<' :: rest) 0 0 with
      | none => simp
      | some j =>
          have hstep : bareSplitIdx ('<' :: rest) 0 0 = bareSplitIdx rest 1 0 := by
            rw [bareSplitIdx, if_neg (by decide), if_neg (by decide)]
          rw [hstep] at hb
          have hj : 1 ≤ j := bareSplitIdx_ge rest 1 0 j hb
          obtain ⟨k, rfl⟩ : ∃ k, j = k + 1 := ⟨j - 1, by omega⟩
          simp
  · rfl

theorem split_angle_no_gt_bare_fallback_witness :
    ('>' ∉ ('<' :: "no-gt here".toList)) ∧
    split_link_destination ('<' :: "no-gt here".toList)
      = bareSplit ('<' :: "no-gt here".toList) ∧
    (bareSplit ('<' :: "no-gt here".toList)).2.2 = false ∧
    (bareSplit ('<' :: "no-gt here".toList)).1.head? = some '<' :=
  ⟨by decide, split_angle_no_gt_bare_fallback.1 _ (by decide)⟩

/-! ## C7: separator-cell normalization -/

theorem getLast?_replicate_succ (c : Char) (m : Nat) :
    (List.replicate (m + 1) c).getLast? = some c := by
  rw [List.replicate_succ']
  exact List.getLast?_concat _

theorem cellCompact_separator (cell t : Str) (ht : trim cell = t) (hne : t ≠ [])
    (hall : t.all (fun c => c = '-' || c = ':') = true) :
    cellCompact cell = (if t.head? = some ':' then [':'] else []) ++ ['-'] ++
      (if t.getLast? = some ':' then [':'] else []) := by
  unfold cellCompact
  rw [ht, if_pos ⟨hne, hall⟩]

/-- Claim C7: a cell whose trimmed text is an optional leading `:`, a run of at
least one dash, and an optional trailing `:` compacts to exactly `-`, `:-`,
`-:` or `:-:`, chosen by which ends carried a `:`; the dash run length is
discarded. -/
theorem separator_cell_normalization (cell : Str) (lead trail : Bool) (n : Nat)
    (hn : 1 ≤ n)
    (h : trim cell = (if lead then [':'] else []) ++ List.replicate n '-' ++
          (if trail then [':'] else [])) :
    cellCompact cell = (if lead then [':'] else []) ++ ['-'] ++
      (if trail then [':'] else []) := by
  obtain ⟨m, rfl⟩ : ∃ m, n = m + 1 := ⟨n - 1, by omega⟩
  have hall : ∀ (l : Str), (∀ x ∈ l, (x = '-' || x = ':') = true) →
      l.all (fun c => c = '-' || c = ':') = true := fun l => List.all_eq_true.2
  have hrep : ∀ x ∈ List.replicate (m + 1) '-', (x = '-' || x = ':') = true := by
    intro x hx
    have := List.eq_of_mem_replicate hx
    simp [this]
  cases lead <;> cases trail <;>
    simp only [Bool.false_eq_true, if_false, if_true, List.nil_append,
      List.append_nil] at h ⊢
  · rw [cellCompact_separator cell _ h (by simp [List.replicate_succ]) (hall _ hrep)]
    rw [getLast?_replicate_succ]
    simp [List.replicate_succ]
  · have hallx : ∀ x ∈ List.replicate (m + 1) '-' ++ [':'],
        (x = '-' || x = ':') = true := by
      intro x hx
      rcases List.mem_append.1 hx with hx | hx
      · exact hrep x hx
      · simp_all
    rw [cellCompact_separator cell _ h (by simp) (hall _ hallx)]
    rw [List.getLast?_concat]
    rw [List.head?_append_of_ne_nil _ (by simp [List.replicate_succ])]
    simp [List.replicate_succ]
  · have hallx : ∀ x ∈ [':'] ++ List.replicate (m + 1) '-',
        (x = '-' || x = ':') = true := by
      intro x hx
      rcases List.mem_append.1 hx with hx | hx
      · simp_all
      · exact hrep x hx
    rw [cellCompact_separator cell _ h (by simp) (hall _ hallx)]
    rw [List.getLast?_append_of_ne_nil _ (by simp [List.replicate_succ])]
    rw [getLast?_replicate_succ]
    simp
  · have hallx : ∀ x ∈ [':'] ++ (List.replicate (m + 1) '-' ++ [':']),
        (x = '-' || x = ':') = true := by
      intro x hx
      rcases List.mem_append.1 hx with hx | hx
      · simp_all
      · rcases List.mem_append.1 hx with hx | hx
        · exact hrep x hx
        · simp_all
    rw [cellCompact_separator cell _ h (by simp) (hall _ hallx)]
    rw [List.getLast?_append_of_ne_nil _ (by simp)]
    simp

theorem separator_cell_normalization_witness :
    (1 ≤ 3) ∧
    trim ("  :---  ".toList) = (if true then [':'] else []) ++
      List.replicate 3 '-' ++ (if false then [':'] else []) ∧
    cellCompact ("  :---  ".toList) = (if true then [':'] else []) ++ ['-'] ++
      (if false then [':'] else []) :=
  ⟨by decide, by decide,
   separator_cell_normalization ("  :---  ".toList) true false 3 (by decide) (by decide)⟩

/-! ## C3: fence inviolability -/

theorem hasCRLF_append_crlf (xs ys : Str) :
    hasCRLF (xs ++ '\r' :: '\n' :: ys) = true := by
  induction xs with
  | nil => simp [hasCRLF]
  | cons x xs ih => simp [hasCRLF, ih]

theorem hasCRLF_append_right (xs ys : Str) :
    hasCRLF (xs ++ ys) = false → hasCRLF ys = false := by
  induction xs with
  | nil => exact id
  | cons x xs ih =>
      intro h
      rw [List.cons_append, hasCRLF, Bool.or_eq_false_iff] at h
      exact ih h.2

theorem rustLinesAux_split :
    ∀ (t acc r : Str), hasCRLF (acc.reverse ++ (t ++ ['\n'])) = false →
      rustLinesAux (t ++ '\n' :: r) acc = splitCharAux '\n' t acc ++ rustLinesAux r [] := by
  intro t
  induction t with
  | nil =>
      intro acc r h
      have hacc : acc.head? ≠ some '\r' := by
        intro hx
        cases acc with
        | nil => simp at hx
        | cons a acc2 =>
            have : a = '\r' := by simpa using hx
            subst this
            rw [show ('\r' :: acc2).reverse ++ ([] ++ ['\n'])
                  = acc2.reverse ++ '\r' :: '\n' :: [] by simp] at h
            rw [hasCRLF_append_crlf] at h
            simp at h
      rw [List.nil_append, rustLinesAux, if_pos rfl, if_neg hacc]
      rfl
  | cons c t2 ih =>
      intro acc r h
      by_cases hc : c = '\n'
      · subst hc
        have hacc : acc.head? ≠ some '\r' := by
          intro hx
          cases acc with
          | nil => simp at hx
          | cons a acc2 =>
              have : a = '\r' := by simpa using hx
              subst this
              rw [show ('\r' :: acc2).reverse ++ ('\n' :: t2 ++ ['\n'])
                    = acc2.reverse ++ '\r' :: '\n' :: (t2 ++ ['\n']) by simp] at h
              rw [hasCRLF_append_crlf] at h
              simp at h
        rw [List.cons_append, rustLinesAux, if_pos rfl, if_neg hacc]
        rw [splitCharAux, if_pos rfl]
        rw [List.cons_append]
        congr 1
        refine ih [] r ?_
        refine hasCRLF_append_right (acc.reverse ++ ['\n']) _ ?_
        rw [show acc.reverse ++ ['\n'] ++ ([].reverse ++ (t2 ++ ['\n']))
              = acc.reverse ++ ('\n' :: t2 ++ ['\n']) by simp]
        exact h
      · rw [List.cons_append, rustLinesAux, if_neg hc]
        rw [splitCharAux, if_neg hc]
        refine ih (c :: acc) r ?_
        rw [show (c :: acc).reverse ++ (t2 ++ ['\n'])
              = acc.reverse ++ (c :: t2 ++ ['\n']) by simp]
        exact h

theorem joinLines_splitAux :
    ∀ (t acc r : Str),
      joinLines (splitCharAux '\n' t acc ++ [r]) = acc.reverse ++ (t ++ ('\n' :: r)) := by
  intro t
  induction t with
  | nil =>
      intro acc r
      rw [splitCharAux]
      rw [List.cons_append, List.nil_append, joinLines]
      rw [if_neg (by simp)]
      rw [joinLines, if_pos rfl, List.append_nil]
      rfl
  | cons c t2 ih =>
      intro acc r
      by_cases hc : c = '\n'
      · subst hc
        rw [splitCharAux, if_pos rfl]
        rw [List.cons_append, joinLines]
        rw [if_neg (by simp)]
        rw [ih [] r]
        simp
      · rw [splitCharAux, if_neg hc]
        rw [ih (c :: acc) r]
        simp

theorem compactStep_in_backtick_fence (l : Str) (h : opensBacktickFence l = false) :
    compactStep ⟨true, '`', 3⟩ l = (⟨true, '`', 3⟩, l) := by
  unfold compactStep
  unfold opensBacktickFence at h
  cases hfm : fence_marker (trimStart l) with
  | none => simp [hfm]
  | some p =>
      rw [hfm] at h
      have hm : p.1 ≠ '`' := by simpa using h
      simp [hfm, hm]

theorem compactLines_in_backtick_fence :
    ∀ (ls r : List Str), (∀ l ∈ ls, opensBacktickFence l = false) →
      compactLines ⟨true, '`', 3⟩ (ls ++ r)
        = ls ++ compactLines ⟨true, '`', 3⟩ r := by
  intro ls
  induction ls with
  | nil => intro r _; rfl
  | cons l ls ih =>
      intro r h
      rw [List.cons_append, compactLines]
      rw [compactStep_in_backtick_fence l (h l (List.mem_cons_self l ls))]
      rw [List.cons_append]
      exact congrArg _ (ih r fun x hx => h x (List.mem_cons_of_mem l hx))

/-- Claim C3 counterexample: with `t = "```\r\n|  x  |"` the fence wrapper is NOT
returned unchanged — the backtick line inside `t` closes the fence, the
table-like line is compacted, and the CRLF is normalized. -/
theorem compact_fence_counterexample :
    compact_markdown ("```\n```\r\n|  x  |\n```".toList)
      ≠ "```\n```\r\n|  x  |\n```".toList := by
  decide

/-- Claim C3 amended: wrapping `t` in a backtick fence is preserved verbatim by
`compact_markdown` — table-like lines included — provided no line of `t`
itself starts (after left-trim) with a run of three or more backticks, and
`t` introduces no CRLF sequence (which line splitting would normalize). -/
theorem compact_fence_inviolable (t : Str)
    (h1 : hasCRLF (t ++ ['\n']) = false)
    (h2 : ∀ l ∈ splitChar '\n' t, opensBacktickFence l = false) :
    compact_markdown ('`' :: '`' :: '`' :: '\n' :: (t ++ '\n' :: '`' :: '`' :: '`' :: []))
      = '`' :: '`' :: '`' :: '\n' :: (t ++ '\n' :: '`' :: '`' :: '`' :: []) := by
  have ha : rustLines ('`' :: '`' :: '`' :: '\n' :: (t ++ '\n' :: '`' :: '`' :: '`' :: []))
      = ['`', '`', '`'] :: (splitChar '\n' t ++ [['`', '`', '`']]) := by
    unfold rustLines
    rw [rustLinesAux, if_neg (by decide)]
    rw [rustLinesAux, if_neg (by decide)]
    rw [rustLinesAux, if_neg (by decide)]
    rw [rustLinesAux, if_pos rfl, if_neg (by decide)]
    rw [rustLinesAux_split t [] ['`', '`', '`'] (by simpa using h1)]
    rfl
  unfold compact_markdown
  rw [ha]
  rw [compactLines]
  rw [show compactStep fenceInit ['`', '`', '`'] = (⟨true, '`', 3⟩, ['`', '`', '`'])
        from by decide]
  rw [compactLines_in_backtick_fence (splitChar '\n' t) [['`', '`', '`']] h2]
  rw [show compactLines ⟨true, '`', 3⟩ [['`', '`', '`']] = [['`', '`', '`']]
        from by decide]
  rw [joinLines, if_neg (by simp)]
  rw [show splitChar '\n' t = splitCharAux '\n' t [] from rfl]
  rw [joinLines_splitAux t [] ['`', '`', '`']]
  rfl

theorem compact_fence_inviolable_witness :
    hasCRLF ("| a   | b |\n~~~".toList ++ ['\n']) = false ∧
    (∀ l ∈ splitChar '\n' ("| a   | b |\n~~~".toList), opensBacktickFence l = false) ∧
    compact_markdown ('`' :: '`' :: '`' :: '\n' ::
        ("| a   | b |\n~~~".toList ++ '\n' :: '`' :: '`' :: '`' :: []))
      = '`' :: '`' :: '`' :: '\n' ::
        ("| a   | b |\n~~~".toList ++ '\n' :: '`' :: '`' :: '`' :: []) :=
  ⟨by decide, by decide, compact_fence_inviolable _ (by decide) (by decide)⟩

/-! ## C10: line-terminator normalization -/

theorem getLast?_mem_of_eq {l : Str} {a : Char} (h : l.getLast? = some a) : a ∈ l := by
  have := List.mem_getLast?_eq_getLast (l := l) (x := a) (by rw [h]; exact rfl)
  obtain ⟨hh, rfl⟩ := this
  exact List.getLast_mem hh

theorem mem_trimStart {c : Char} {l : Str} (h : c ∈ trimStart l) : c ∈ l :=
  (List.dropWhile_sublist _).subset h

theorem mem_trim {c : Char} {l : Str} (h : c ∈ trim l) : c ∈ l := by
  unfold trim trimEnd at h
  rw [List.mem_reverse] at h
  have := (List.dropWhile_sublist (l := (trimStart l).reverse) isRustWhitespace).subset h
  rw [List.mem_reverse] at this
  exact mem_trimStart this

theorem mem_splitCharAux (sep : Char) :
    ∀ (s acc p : Str), p ∈ splitCharAux sep s acc → ∀ c ∈ p, c ∈ s ∨ c ∈ acc := by
  intro s
  induction s with
  | nil =>
      intro acc p hp c hc
      rw [splitCharAux, List.mem_singleton] at hp
      subst hp
      exact Or.inr (List.mem_reverse.1 hc)
  | cons d s2 ih =>
      intro acc p hp c hc
      rw [splitCharAux] at hp
      by_cases hd : d = sep
      · rw [if_pos hd, List.mem_cons] at hp
        rcases hp with rfl | hp
        · exact Or.inr (List.mem_reverse.1 hc)
        · rcases ih [] p hp c hc with h | h
          · exact Or.inl (List.mem_cons_of_mem d h)
          · simp at h
      · rw [if_neg hd] at hp
        rcases ih (d :: acc) p hp c hc with h | h
        · exact Or.inl (List.mem_cons_of_mem d h)
        · rcases List.mem_cons.1 h with rfl | h
          · exact Or.inl (List.mem_cons_self c s2)
          · exact Or.inr h

theorem mem_joinCells :
    ∀ (L : List Str) (c : Char), c ∈ joinCells L →
      (∃ l ∈ L, c ∈ l) ∨ c = ' ' ∨ c = '|' := by
  intro L
  induction L with
  | nil => intro c hc; simp [joinCells] at hc
  | cons l ls ih =>
      intro c hc
      rw [joinCells] at hc
      rcases List.mem_append.1 hc with hc | hc
      · exact Or.inl ⟨l, List.mem_cons_self l ls, hc⟩
      · by_cases hls : ls = []
        · rw [if_pos hls] at hc
          simp at hc
        · rw [if_neg hls] at hc
          rcases List.mem_cons.1 hc with rfl | hc
          · exact Or.inr (Or.inl rfl)
          · rcases List.mem_cons.1 hc with rfl | hc
            · exact Or.inr (Or.inr rfl)
            · rcases List.mem_cons.1 hc with rfl | hc
              · exact Or.inr (Or.inl rfl)
              · rcases ih c hc with ⟨x, hx, hcx⟩ | h
                · exact Or.inl ⟨x, List.mem_cons_of_mem l hx, hcx⟩
                · exact Or.inr h

theorem mem_joinLines :
    ∀ (L : List Str) (c : Char), c ∈ joinLines L →
      (∃ l ∈ L, c ∈ l) ∨ c = '\n' := by
  intro L
  induction L with
  | nil => intro c hc; simp [joinLines] at hc
  | cons l ls ih =>
      intro c hc
      rw [joinLines] at hc
      rcases List.mem_append.1 hc with hc | hc
      · exact Or.inl ⟨l, List.mem_cons_self l ls, hc⟩
      · by_cases hls : ls = []
        · rw [if_pos hls] at hc
          simp at hc
        · rw [if_neg hls] at hc
          rcases List.mem_cons.1 hc with rfl | hc
          · exact Or.inr rfl
          · rcases ih c hc with ⟨x, hx, hcx⟩ | h
            · exact Or.inl ⟨x, List.mem_cons_of_mem l hx, hcx⟩
            · exact Or.inr h

theorem mem_cellCompact {c : Char} {p : Str} (h : c ∈ cellCompact p) :
    c ∈ p ∨ c = '-' ∨ c = ':' := by
  unfold cellCompact at h
  by_cases hcond : trim p ≠ [] ∧ (trim p).all (fun x => x = '-' || x = ':') = true
  · rw [if_pos hcond] at h
    rcases List.mem_append.1 h with h | h
    · rcases List.mem_append.1 h with h | h
      · by_cases hh : (trim p).head? = some ':' <;> simp_all
      · simp at h
        simp [h]
    · by_cases hh : (trim p).getLast? = some ':' <;> simp_all
  · rw [if_neg hcond] at h
    exact Or.inl (mem_trim h)

theorem mem_compact_table_row {c : Char} {r : Str} (h : c ∈ compact_table_row r) :
    c ∈ r ∨ c = ' ' ∨ c = '|' ∨ c = '-' ∨ c = ':' := by
  unfold compact_table_row at h
  rcases List.mem_cons.1 h with rfl | h
  · exact Or.inr (Or.inr (Or.inl rfl))
  rcases List.mem_cons.1 h with rfl | h
  · exact Or.inr (Or.inl rfl)
  rcases List.mem_append.1 h with h | h
  · rcases mem_joinCells _ c h with ⟨l, hl, hcl⟩ | h2
    · rcases List.mem_map.1 hl with ⟨piece, hpiece, rfl⟩
      rcases mem_cellCompact hcl with hcp | h3
      · rcases mem_splitCharAux '|' _ [] piece hpiece c hcp with hin | hin
        · have h1 : c ∈ List.drop 1 r :=
            (List.dropLast_sublist _).subset hin
          exact Or.inl (List.drop_subset 1 r h1)
        · simp at hin
      · exact Or.inr (Or.inr (Or.inr h3))
    · rcases h2 with rfl | rfl
      · exact Or.inr (Or.inl rfl)
      · exact Or.inr (Or.inr (Or.inl rfl))
  · rcases List.mem_cons.1 h with rfl | h
    · exact Or.inr (Or.inl rfl)
    · rcases List.mem_cons.1 h with rfl | h
      · exact Or.inr (Or.inr (Or.inl rfl))
      · simp at h

theorem compactStep_snd_cases (st : FenceState) (l : Str) :
    (compactStep st l).2 = l ∨ (compactStep st l).2 = compact_table_row (trim l) := by
  unfold compactStep
  rcases hfm : fence_marker (trimStart l) with _ | ⟨m, k⟩
  · by_cases hact : st.active
    · simp [hact]
    · by_cases ht : (trim l).head? = some '|' ∧ (trim l).getLast? = some '|' ∧
          (trim l).length > 1
      · simp [hact, ht]
      · simp [hact, ht]
  · by_cases hact : st.active
    · by_cases hcl : m = st.ch ∧ k ≥ st.len
      · simp [hact, hcl]
      · simp [hact, hcl]
    · simp [hact]

theorem compactLines_no_char (c : Char)
    (hc : c ≠ ' ' ∧ c ≠ '|' ∧ c ≠ '-' ∧ c ≠ ':') :
    ∀ (L : List Str) (st : FenceState), (∀ l ∈ L, c ∉ l) →
      ∀ l2 ∈ compactLines st L, c ∉ l2 := by
  intro L
  induction L with
  | nil => intro st _ l2 hl2; simp [compactLines] at hl2
  | cons l ls ih =>
      intro st hL l2 hl2
      rw [compactLines] at hl2
      rcases List.mem_cons.1 hl2 with rfl | hl2
      · rcases compactStep_snd_cases st l with he | he
        · rw [he]
          exact hL l (List.mem_cons_self l ls)
        · rw [he]
          intro hmem
          rcases mem_compact_table_row hmem with h | h | h | h | h
          · exact hL l (List.mem_cons_self l ls) (mem_trim h)
          · exact hc.1 h
          · exact hc.2.1 h
          · exact hc.2.2.1 h
          · exact hc.2.2.2 h
      · exact ih _ (fun x hx => hL x (List.mem_cons_of_mem l hx)) l2 hl2

theorem rustLinesAux_crOK_no_cr :
    ∀ (s acc : Str), crOK s = true →
      ('\r' ∉ acc ∨ (∃ acc2, acc = '\r' :: acc2 ∧ '\r' ∉ acc2 ∧ s.head? = some '\n')) →
      ∀ l ∈ rustLinesAux s acc, '\r' ∉ l := by
  intro s
  induction s with
  | nil =>
      intro acc _ hinv l hl
      rw [rustLinesAux] at hl
      by_cases hacc : acc = []
      · rw [if_pos hacc] at hl
        simp at hl
      · rw [if_neg hacc, List.mem_singleton] at hl
        subst hl
        rcases hinv with h | ⟨acc2, rfl, _, hhd⟩
        · rw [List.mem_reverse]; exact h
        · simp at hhd
  | cons d s2 ih =>
      intro acc hcr hinv l hl
      rw [crOK, Bool.and_eq_true] at hcr
      obtain ⟨hc1, hc2⟩ := hcr
      rw [rustLinesAux] at hl
      by_cases hd : d = '\n'
      · rw [if_pos hd] at hl
        rcases List.mem_cons.1 hl with rfl | hl
        · rcases hinv with h | ⟨acc2, rfl, hacc2, _⟩
          · have : acc.head? ≠ some '\r' := by
              intro hx
              cases acc with
              | nil => simp at hx
              | cons a acc2 => exact h (by simp at hx; simp [hx])
            rw [if_neg this, List.mem_reverse]
            exact h
          · rw [if_pos (by simp), List.mem_reverse]
            simpa using hacc2
        · exact ih [] hc2 (Or.inl (by simp)) l hl
      · rw [if_neg hd] at hl
        have hnotr : '\r' ∉ acc := by
          rcases hinv with h | ⟨acc2, rfl, _, hhd⟩
          · exact h
          · exact absurd (by simpa using hhd) hd
        by_cases hdr : d = '\r'
        · subst hdr
          have hs2 : s2.head? = some '\n' := by
            rcases (by simpa using hc1 : ¬ '\r' = '\r' ∨ s2.head? = some '\n') with h | h
            · exact absurd rfl h
            · exact h
          exact ih ('\r' :: acc) hc2 (Or.inr ⟨acc, rfl, hnotr, hs2⟩) l hl
        · refine ih (d :: acc) hc2 (Or.inl ?_) l hl
          intro hx
          rcases List.mem_cons.1 hx with h | h
          · exact hdr h.symm
          · exact hnotr h

theorem rustLinesAux_nil (acc : Str) :
    rustLinesAux [] acc = if acc = [] then [] else [acc.reverse] := rfl

theorem rustLinesAux_cons (c : Char) (rest acc : Str) :
    rustLinesAux (c :: rest) acc =
      if c = '\n' then
        (if acc.head? = some '\r' then acc.tail.reverse else acc.reverse) ::
          rustLinesAux rest []
      else rustLinesAux rest (c :: acc) := rfl

theorem rustLinesAux_append_newline :
    ∀ (s acc : Str), s.getLast? ≠ some '\n' → s.getLast? ≠ some '\r' →
      (s = [] → (acc ≠ [] ∧ acc.head? ≠ some '\r')) →
      rustLinesAux (s ++ ['\n']) acc = rustLinesAux s acc := by
  intro s
  induction s with
  | nil =>
      intro acc _ _ h3
      obtain ⟨hne, hhd⟩ := h3 rfl
      rw [List.nil_append, rustLinesAux_cons '\n' [] acc, if_pos rfl, if_neg hhd]
      simp [rustLinesAux_nil, hne]
  | cons c rest ih =>
      intro acc h1 h2 _
      cases rest with
      | nil =>
          have hc1 : c ≠ '\n' := by simpa using h1
          have hc2 : c ≠ '\r' := by simpa using h2
          rw [List.cons_append, List.nil_append,
              rustLinesAux_cons c ['\n'] acc, if_neg hc1,
              rustLinesAux_cons '\n' [] (c :: acc), if_pos rfl,
              if_neg (by simpa using hc2),
              rustLinesAux_cons c [] acc, if_neg hc1]
          simp [rustLinesAux_nil]
      | cons d rest2 =>
          have h1' : (d :: rest2).getLast? ≠ some '\n' := by
            rwa [List.getLast?_cons_cons] at h1
          have h2' : (d :: rest2).getLast? ≠ some '\r' := by
            rwa [List.getLast?_cons_cons] at h2
          have hrec := ih [] h1' h2' (fun hh => absurd hh (List.cons_ne_nil d rest2))
          have hrec2 := fun acc2 =>
            ih acc2 h1' h2' (fun hh => absurd hh (List.cons_ne_nil d rest2))
          by_cases hc : c = '\n'
          · rw [List.cons_append,
                rustLinesAux_cons c ((d :: rest2) ++ ['\n']) acc, if_pos hc,
                rustLinesAux_cons c (d :: rest2) acc, if_pos hc, hrec]
          · rw [List.cons_append,
                rustLinesAux_cons c ((d :: rest2) ++ ['\n']) acc, if_neg hc,
                rustLinesAux_cons c (d :: rest2) acc, if_neg hc]
            exact hrec2 (c :: acc)

theorem rustLinesAux_append_crlf :
    ∀ (s acc : Str), s.getLast? ≠ some '\n' → (s = [] → acc ≠ []) →
      rustLinesAux (s ++ ['\r', '\n']) acc = rustLinesAux s acc := by
  intro s
  induction s with
  | nil =>
      intro acc _ h3
      have hne := h3 rfl
      rw [List.nil_append,
          rustLinesAux_cons '\r' ['\n'] acc, if_neg (by decide),
          rustLinesAux_cons '\n' [] ('\r' :: acc), if_pos rfl,
          if_pos (show List.head? ('\r' :: acc) = some '\r' from rfl)]
      simp [rustLinesAux_nil, hne]
  | cons c rest ih =>
      intro acc h1 _
      cases rest with
      | nil =>
          have hc1 : c ≠ '\n' := by simpa using h1
          rw [List.cons_append, List.nil_append,
              rustLinesAux_cons c ['\r', '\n'] acc, if_neg hc1,
              rustLinesAux_cons '\r' ['\n'] (c :: acc), if_neg (by decide),
              rustLinesAux_cons '\n' [] ('\r' :: c :: acc), if_pos rfl,
              if_pos (show List.head? ('\r' :: c :: acc) = some '\r' from rfl),
              rustLinesAux_cons c [] acc, if_neg hc1]
          simp [rustLinesAux_nil]
      | cons d rest2 =>
          have h1' : (d :: rest2).getLast? ≠ some '\n' := by
            rwa [List.getLast?_cons_cons] at h1
          have hrec := ih [] h1' (fun hh => absurd hh (List.cons_ne_nil d rest2))
          have hrec2 := fun acc2 =>
            ih acc2 h1' (fun hh => absurd hh (List.cons_ne_nil d rest2))
          by_cases hc : c = '\n'
          · rw [List.cons_append,
                rustLinesAux_cons c ((d :: rest2) ++ ['\r', '\n']) acc, if_pos hc,
                rustLinesAux_cons c (d :: rest2) acc, if_pos hc, hrec]
          · rw [List.cons_append,
                rustLinesAux_cons c ((d :: rest2) ++ ['\r', '\n']) acc, if_neg hc,
                rustLinesAux_cons c (d :: rest2) acc, if_neg hc]
            exact hrec2 (c :: acc)

/-- Claim C10 counterexample: for `s = "a\r"` (which does not end in a newline),
`compact(s ++ "\n") = "a"` while `compact(s) = "a\r"` — appending a bare
`"\n"` lets the line splitter strip the preceding `'\r'`, so the claimed
equation `compact(s + "\n") == compact(s)` fails. -/
theorem compact_terminator_counterexample :
    compact_markdown ("a\r\n".toList) ≠ compact_markdown ("a\r".toList) := by
  decide

/-- Claim C10 amended: for every `s` not ending in `'\n'`: appending `"\n"` leaves
`compact` unchanged provided `s` also does not end in `'\r'` (else the CR
would fuse with the appended LF and be stripped); appending `"\r\n"` always
leaves `compact` unchanged; and if every `'\r'` in `s` is part of a CRLF
pair, the output contains no `'\r'` at all — interior CRLF endings come out
as bare `'\n'`. -/
theorem compact_line_terminators (s : Str) (h : s.getLast? ≠ some '\n') :
    (s.getLast? ≠ some '\r' → compact_markdown (s ++ ['\n']) = compact_markdown s) ∧
    compact_markdown (s ++ ['\r', '\n']) = compact_markdown s ∧
    (crOK s = true → '\r' ∉ compact_markdown s) := by
  refine ⟨?_, ?_, ?_⟩
  · intro h2
    cases s with
    | nil => rfl
    | cons c rest =>
        unfold compact_markdown rustLines
        rw [rustLinesAux_append_newline (c :: rest) [] h h2
            (fun hh => absurd hh (List.cons_ne_nil c rest))]
  · cases s with
    | nil => rfl
    | cons c rest =>
        unfold compact_markdown rustLines
        rw [rustLinesAux_append_crlf (c :: rest) [] h
            (fun hh => absurd hh (List.cons_ne_nil c rest))]
  · intro hcr
    intro hmem
    unfold compact_markdown at hmem
    rcases mem_joinLines _ '\r' hmem with ⟨l, hl, hcl⟩ | hnl
    · have hlines : ∀ x ∈ rustLines s, '\r' ∉ x :=
        fun x hx => rustLinesAux_crOK_no_cr s [] hcr (Or.inl (by simp)) x hx
      exact compactLines_no_char '\r' (by decide) (rustLines s) fenceInit hlines l hl hcl
    · exact absurd hnl (by decide)

theorem compact_line_terminators_witness :
    (("x\r\ny".toList : Str).getLast? ≠ some '\n') ∧
    (("x\r\ny".toList : Str).getLast? ≠ some '\r' →
      compact_markdown ("x\r\ny".toList ++ ['\n']) = compact_markdown ("x\r\ny".toList)) ∧
    compact_markdown ("x\r\ny".toList ++ ['\r', '\n']) = compact_markdown ("x\r\ny".toList) ∧
    (crOK ("x\r\ny".toList) = true → '\r' ∉ compact_markdown ("x\r\ny".toList)) :=
  ⟨by decide, (compact_line_terminators _ (by decide)).1,
   (compact_line_terminators _ (by decide)).2.1,
   (compact_line_terminators _ (by decide)).2.2⟩

/-! ## C4: idempotence of compaction -/

theorem dropWhile_dropWhile (p : Char → Bool) :
    ∀ l : Str, List.dropWhile p (List.dropWhile p l) = List.dropWhile p l := by
  intro l
  induction l with
  | nil => rfl
  | cons c l2 ih =>
      rw [List.dropWhile_cons]
      by_cases hp : p c = true
      · rw [if_pos hp]
        exact ih
      · rw [if_neg hp, List.dropWhile_cons, if_neg hp]

theorem dropWhile_eq_self_of_head (p : Char → Bool) (l : Str)
    (h : ∀ c, l.head? = some c → p c = false) : List.dropWhile p l = l := by
  cases l with
  | nil => rfl
  | cons c l2 =>
      rw [List.dropWhile_cons, if_neg (by simp [h c rfl])]

theorem head?_trimEnd (l : Str) (h : trimEnd l ≠ []) : (trimEnd l).head? = l.head? := by
  unfold trimEnd at h ⊢
  obtain ⟨t, ht⟩ : List.dropWhile isRustWhitespace l.reverse <:+ l.reverse :=
    List.dropWhile_suffix _
  have hpre : (List.dropWhile isRustWhitespace l.reverse).reverse ++ t.reverse = l := by
    rw [← List.reverse_append, ht, List.reverse_reverse]
  conv_rhs => rw [← hpre]
  rw [List.head?_append_of_ne_nil _ h]

theorem trimStart_head (l : Str) :
    ∀ c, (trimStart l).head? = some c → isRustWhitespace c = false := by
  intro c hc
  have := List.head?_dropWhile_not isRustWhitespace l
  unfold trimStart at hc
  rw [hc] at this
  exact this

theorem trimStart_trimEnd_trimStart (l : Str) :
    trimStart (trimEnd (trimStart l)) = trimEnd (trimStart l) := by
  by_cases h : trimEnd (trimStart l) = []
  · rw [h]; rfl
  · refine dropWhile_eq_self_of_head _ _ ?_
    intro c hc
    rw [head?_trimEnd _ h] at hc
    exact trimStart_head l c hc

theorem trimEnd_trimEnd (l : Str) : trimEnd (trimEnd l) = trimEnd l := by
  unfold trimEnd
  rw [List.reverse_reverse, dropWhile_dropWhile]

theorem trim_idem (l : Str) : trim (trim l) = trim l := by
  unfold trim
  rw [trimStart_trimEnd_trimStart, trimEnd_trimEnd]

theorem trimEnd_concat_ws (l : Str) : trimEnd (l ++ [' ']) = trimEnd l := by
  unfold trimEnd
  rw [List.reverse_append]
  rfl

theorem trim_pad (l : Str) : trim (' ' :: (l ++ [' '])) = trim l := by
  unfold trim
  rw [show trimStart (' ' :: (l ++ [' '])) = trimStart (l ++ [' '])
        from by unfold trimStart; rw [List.dropWhile_cons, if_pos (by decide)]]
  unfold trimStart
  rw [List.dropWhile_append]
  by_cases h : (List.dropWhile isRustWhitespace l).isEmpty = true
  · rw [if_pos h]
    rw [show List.dropWhile isRustWhitespace [' '] = ([] : Str) from rfl]
    rw [List.isEmpty_iff] at h
    rw [h]
  · rw [if_neg h]
    exact trimEnd_concat_ws _

theorem trim_eq_self (l : Str)
    (hh : ∀ c, l.head? = some c → isRustWhitespace c = false)
    (hl : ∀ c, l.getLast? = some c → isRustWhitespace c = false) :
    trim l = l := by
  unfold trim
  rw [show trimStart l = l from dropWhile_eq_self_of_head _ _ hh]
  unfold trimEnd
  rw [show List.dropWhile isRustWhitespace l.reverse = l.reverse from
        dropWhile_eq_self_of_head _ _ (by
          intro c hc
          rw [List.head?_reverse] at hc
          exact hl c hc)]
  exact List.reverse_reverse l

theorem splitCharAux_no_sep (sep : Char) :
    ∀ (l acc : Str), sep ∉ l → splitCharAux sep l acc = [acc.reverse ++ l] := by
  intro l
  induction l with
  | nil => intro acc _; simp [splitCharAux]
  | cons c l2 ih =>
      intro acc h
      have hc : c ≠ sep := fun hh => h (hh ▸ List.mem_cons_self c l2)
      rw [splitCharAux, if_neg hc, ih (c :: acc) (fun hh => h (List.mem_cons_of_mem c hh))]
      simp

theorem splitCharAux_sep_append (sep : Char) :
    ∀ (p rest acc : Str), sep ∉ p →
      splitCharAux sep (p ++ sep :: rest) acc
        = (acc.reverse ++ p) :: splitCharAux sep rest [] := by
  intro p
  induction p with
  | nil =>
      intro rest acc _
      rw [List.nil_append, splitCharAux, if_pos rfl]
      simp
  | cons c p2 ih =>
      intro rest acc h
      have hc : c ≠ sep := fun hh => h (hh ▸ List.mem_cons_self c p2)
      rw [List.cons_append, splitCharAux, if_neg hc,
          ih rest (c :: acc) (fun hh => h (List.mem_cons_of_mem c hh))]
      simp

theorem mem_piece_splitCharAux (sep : Char) :
    ∀ (s acc p : Str), sep ∉ acc → p ∈ splitCharAux sep s acc → sep ∉ p := by
  intro s
  induction s with
  | nil =>
      intro acc p hacc hp
      rw [splitCharAux, List.mem_singleton] at hp
      subst hp
      simpa using hacc
  | cons c s2 ih =>
      intro acc p hacc hp
      rw [splitCharAux] at hp
      by_cases hc : c = sep
      · rw [if_pos hc, List.mem_cons] at hp
        rcases hp with rfl | hp
        · simpa using hacc
        · exact ih [] p (by simp) hp
      · rw [if_neg hc] at hp
        refine ih (c :: acc) p ?_ hp
        intro hh
        rcases List.mem_cons.1 hh with h | h
        · exact hc h.symm
        · exact hacc h

theorem splitCharAux_ne_nil (sep : Char) :
    ∀ (s acc : Str), splitCharAux sep s acc ≠ [] := by
  intro s
  induction s with
  | nil => intro acc; simp [splitCharAux]
  | cons c s2 ih =>
      intro acc
      rw [splitCharAux]
      by_cases hc : c = sep
      · rw [if_pos hc]; exact List.cons_ne_nil _ _
      · rw [if_neg hc]; exact ih (c :: acc)

theorem cellCompact_congr_trim (x y : Str) (h : trim x = trim y) :
    cellCompact x = cellCompact y := by
  unfold cellCompact
  rw [h]

theorem trim_cellCompact (p : Str) : trim (cellCompact p) = cellCompact p := by
  unfold cellCompact
  by_cases hcond : trim p ≠ [] ∧ (trim p).all (fun c => c = '-' || c = ':') = true
  · rw [if_pos hcond]
    by_cases h1 : (trim p).head? = some ':' <;>
      by_cases h2 : (trim p).getLast? = some ':' <;>
        simp [h1, h2] <;> decide
  · rw [if_neg hcond]
    exact trim_idem p

theorem cellCompact_idem (p : Str) : cellCompact (cellCompact p) = cellCompact p := by
  by_cases hcond : trim p ≠ [] ∧ (trim p).all (fun c => c = '-' || c = ':') = true
  · have hout : cellCompact p = (if (trim p).head? = some ':' then [':'] else []) ++
        ['-'] ++ (if (trim p).getLast? = some ':' then [':'] else []) := by
      unfold cellCompact
      rw [if_pos hcond]
    by_cases h1 : (trim p).head? = some ':' <;>
      by_cases h2 : (trim p).getLast? = some ':' <;>
        rw [hout] <;> simp only [h1, h2, if_pos, if_neg, if_true, if_false] <;> decide
  · have hout : cellCompact p = trim p := by
      unfold cellCompact
      rw [if_neg hcond]
    rw [hout]
    conv_lhs => rw [show cellCompact (trim p) = cellCompact p from
      cellCompact_congr_trim _ _ (trim_idem p)]
    rw [hout]

theorem map_eq_self_of (f : Str → Str) :
    ∀ l : List Str, (∀ x ∈ l, f x = x) → l.map f = l := by
  intro l
  induction l with
  | nil => intro _; rfl
  | cons x xs ih =>
      intro h
      rw [List.map_cons, h x (List.mem_cons_self x xs),
          ih (fun y hy => h y (List.mem_cons_of_mem x hy))]

theorem splitChar_joinCells :
    ∀ (cells : List Str), cells ≠ [] → (∀ c ∈ cells, '|' ∉ c) →
      splitChar '|' (' ' :: (joinCells cells ++ [' ']))
        = cells.map (fun c => ' ' :: (c ++ [' '])) := by
  intro cells
  induction cells with
  | nil => intro h _; exact absurd rfl h
  | cons c cs ih =>
      intro _ hnp
      have hc : '|' ∉ c := hnp c (List.mem_cons_self c cs)
      cases cs with
      | nil =>
          rw [joinCells, if_pos rfl, List.append_nil]
          unfold splitChar
          rw [splitCharAux_no_sep '|' (' ' :: (c ++ [' '])) [] (by
            intro hmem
            rcases List.mem_cons.1 hmem with h | h
            · exact absurd h.symm (by decide)
            · rcases List.mem_append.1 h with h | h
              · exact hc h
              · simp at h)]
          simp
      | cons c2 cs2 =>
          rw [joinCells, if_neg (List.cons_ne_nil c2 cs2)]
          have hre : (' ' :: ((c ++ ' ' :: '|' :: ' ' :: joinCells (c2 :: cs2)) ++ [' ']))
              = (' ' :: (c ++ [' '])) ++ '|' :: (' ' :: (joinCells (c2 :: cs2) ++ [' '])) := by
            simp
          rw [hre]
          unfold splitChar
          rw [splitCharAux_sep_append '|' (' ' :: (c ++ [' ']))
              (' ' :: (joinCells (c2 :: cs2) ++ [' '])) [] (by
            intro hmem
            rcases List.mem_cons.1 hmem with h | h
            · exact absurd h.symm (by decide)
            · rcases List.mem_append.1 h with h | h
              · exact hc h
              · simp at h)]
          rw [show splitCharAux '|' (' ' :: (joinCells (c2 :: cs2) ++ [' '])) []
                = splitChar '|' (' ' :: (joinCells (c2 :: cs2) ++ [' '])) from rfl]
          rw [ih (List.cons_ne_nil c2 cs2)
              (fun x hx => hnp x (List.mem_cons_of_mem c hx))]
          simp

theorem compact_table_row_idem (r : Str) :
    compact_table_row (compact_table_row r) = compact_table_row r := by
  have hnp : ∀ c ∈ (splitChar '|' ((r.drop 1).dropLast)).map cellCompact, '|' ∉ c := by
    intro c hcm
    rcases List.mem_map.1 hcm with ⟨piece, hpiece, rfl⟩
    intro hmem
    rcases mem_cellCompact hmem with h | h | h
    · exact mem_piece_splitCharAux '|' _ [] piece (by simp) hpiece h
    · exact absurd h (by decide)
    · exact absurd h (by decide)
  have hne : (splitChar '|' ((r.drop 1).dropLast)).map cellCompact ≠ [] := by
    intro hh
    rw [List.map_eq_nil_iff] at hh
    exact splitCharAux_ne_nil '|' _ [] hh
  have hinner : ((compact_table_row r).drop 1).dropLast
      = ' ' :: (joinCells ((splitChar '|' ((r.drop 1).dropLast)).map cellCompact) ++ [' ']) := by
    show (' ' :: (joinCells ((splitChar '|' ((r.drop 1).dropLast)).map cellCompact)
        ++ [' ', '|'])).dropLast = _
    rw [show ' ' :: (joinCells ((splitChar '|' ((r.drop 1).dropLast)).map cellCompact)
          ++ [' ', '|'])
        = (' ' :: (joinCells ((splitChar '|' ((r.drop 1).dropLast)).map cellCompact)
          ++ [' '])) ++ ['|'] from by simp]
    rw [List.dropLast_concat]
  have heq1 : compact_table_row (compact_table_row r)
      = '|' :: ' ' :: (joinCells ((splitChar '|'
          (((compact_table_row r).drop 1).dropLast)).map cellCompact) ++ [' ', '|']) := rfl
  rw [heq1, hinner, splitChar_joinCells _ hne hnp, List.map_map]
  rw [map_eq_self_of _ _ (by
    intro c hcm
    rcases List.mem_map.1 hcm with ⟨piece, hpiece, rfl⟩
    show cellCompact (' ' :: (cellCompact piece ++ [' '])) = cellCompact piece
    rw [cellCompact_congr_trim (' ' :: (cellCompact piece ++ [' '])) (cellCompact piece)
        (trim_pad _)]
    exact cellCompact_idem piece)]
  rfl

theorem compactStep_table_cases (st : FenceState) (l : Str) :
    (compactStep st l).2 = l ∨
      (st.active = false ∧ compactStep st l = (st, compact_table_row (trim l))) := by
  unfold compactStep
  rcases hfm : fence_marker (trimStart l) with _ | ⟨m, k⟩
  · by_cases hact : st.active
    · simp [hact]
    · by_cases ht : (trim l).head? = some '|' ∧ (trim l).getLast? = some '|' ∧
          (trim l).length > 1
      · simp only [Bool.not_eq_true] at hact
        simp [hact, ht]
      · simp [hact, ht]
  · by_cases hact : st.active
    · by_cases hcl : m = st.ch ∧ k ≥ st.len
      · simp [hact, hcl]
      · simp [hact, hcl]
    · simp [hact]

theorem fence_marker_cons (c : Char) (rest : Str) :
    fence_marker (c :: rest) = if c ≠ '`' ∧ c ≠ '~' then none
      else if ((c :: rest).takeWhile (· = c)).length ≥ 3 then
        some (c, ((c :: rest).takeWhile (· = c)).length)
      else none := rfl

theorem compactStep_of_row (st : FenceState) (t : Str) (hact : st.active = false) :
    compactStep st (compact_table_row t) = (st, compact_table_row t) := by
  have hrow : compact_table_row t = '|' :: ' ' :: (joinCells
      ((splitChar '|' ((t.drop 1).dropLast)).map cellCompact) ++ [' ', '|']) := rfl
  have h1 : trimStart (compact_table_row t) = compact_table_row t := by
    rw [hrow]
    unfold trimStart
    rw [List.dropWhile_cons, if_neg (by decide)]
  have h2 : fence_marker (trimStart (compact_table_row t)) = none := by
    rw [h1, hrow, fence_marker_cons, if_pos (by decide)]
  have hlast : (compact_table_row t).getLast? = some '|' := by
    rw [hrow]
    rw [show '|' :: ' ' :: (joinCells ((splitChar '|' ((t.drop 1).dropLast)).map cellCompact)
          ++ [' ', '|'])
        = ('|' :: ' ' :: (joinCells ((splitChar '|' ((t.drop 1).dropLast)).map cellCompact)
          ++ [' '])) ++ ['|'] from by simp]
    rw [List.getLast?_concat]
  have hhead : (compact_table_row t).head? = some '|' := by rw [hrow]; rfl
  have htrim : trim (compact_table_row t) = compact_table_row t := by
    refine trim_eq_self _ ?_ ?_
    · intro c hc
      rw [hhead] at hc
      have : c = '|' := by
        have := hc
        simp at this
        exact this.symm
      subst this; decide
    · intro c hc
      rw [hlast] at hc
      have : c = '|' := by
        have := hc
        simp at this
        exact this.symm
      subst this; decide
  have hlen : (compact_table_row t).length > 1 := by
    rw [hrow]
    simp [List.length_cons]
  unfold compactStep
  rw [h2]
  simp only [hact, Bool.false_eq_true, if_false]
  rw [if_pos ⟨by rw [htrim]; exact hhead, by rw [htrim]; exact hlast, by rw [htrim]; exact hlen⟩]
  rw [htrim, compact_table_row_idem]

theorem compactStep_idem (st : FenceState) (l : Str) :
    compactStep st ((compactStep st l).2) = compactStep st l := by
  rcases compactStep_table_cases st l with h | ⟨hact, heq⟩
  · rw [h]
  · rw [heq]
    exact compactStep_of_row st (trim l) hact

theorem compactLines_cons (st : FenceState) (l : Str) (ls : List Str) :
    compactLines st (l :: ls)
      = (compactStep st l).2 :: compactLines (compactStep st l).1 ls := rfl

theorem compactLines_idem :
    ∀ (L : List Str) (st : FenceState),
      compactLines st (compactLines st L) = compactLines st L := by
  intro L
  induction L with
  | nil => intro st; rfl
  | cons l ls ih =>
      intro st
      rw [compactLines_cons st l ls, compactLines_cons st ((compactStep st l).2),
          compactStep_idem st l]
      rw [ih (compactStep st l).1]

theorem rustLinesAux_no_newline_single :
    ∀ (l acc : Str), '\n' ∉ l → (acc ≠ [] ∨ l ≠ []) →
      rustLinesAux l acc = [acc.reverse ++ l] := by
  intro l
  induction l with
  | nil =>
      intro acc _ hne
      rcases hne with h | h
      · rw [rustLinesAux_nil, if_neg h, List.append_nil]
      · exact absurd rfl h
  | cons c l2 ih =>
      intro acc h _
      have hc : c ≠ '\n' := fun hh => h (hh ▸ List.mem_cons_self c l2)
      rw [rustLinesAux_cons, if_neg hc,
          ih (c :: acc) (fun hh => h (List.mem_cons_of_mem c hh))
            (Or.inl (List.cons_ne_nil c acc))]
      simp

theorem rustLinesAux_line_break :
    ∀ (l acc rest : Str), '\n' ∉ l → (l.reverse ++ acc).head? ≠ some '\r' →
      rustLinesAux (l ++ '\n' :: rest) acc
        = (acc.reverse ++ l) :: rustLinesAux rest [] := by
  intro l
  induction l with
  | nil =>
      intro acc rest _ hhd
      rw [List.nil_append, rustLinesAux_cons, if_pos rfl,
          if_neg (by simpa using hhd)]
      simp
  | cons c l2 ih =>
      intro acc rest h hhd
      have hc : c ≠ '\n' := fun hh => h (hh ▸ List.mem_cons_self c l2)
      rw [List.cons_append, rustLinesAux_cons, if_neg hc,
          ih (c :: acc) rest (fun hh => h (List.mem_cons_of_mem c hh))
            (by simpa using hhd)]
      simp

theorem rustLines_joinLines :
    ∀ L : List Str, (∀ l ∈ L, '\n' ∉ l ∧ '\r' ∉ l) → L.getLast? ≠ some [] →
      rustLines (joinLines L) = L := by
  intro L
  induction L with
  | nil => intro _ _; rfl
  | cons l ls ih =>
      intro hmem hlast
      obtain ⟨hn, hr⟩ := hmem l (List.mem_cons_self l ls)
      cases ls with
      | nil =>
          have hlne : l ≠ [] := by simpa using hlast
          rw [joinLines, if_pos rfl, List.append_nil]
          unfold rustLines
          rw [rustLinesAux_no_newline_single l [] hn (Or.inr hlne)]
          rfl
      | cons l2 ls2 =>
          rw [joinLines, if_neg (List.cons_ne_nil l2 ls2)]
          unfold rustLines
          rw [rustLinesAux_line_break l [] (joinLines (l2 :: ls2)) hn (by
            rw [List.append_nil, List.head?_reverse]
            intro hx
            exact hr (getLast?_mem_of_eq hx))]
          simp only [List.reverse_nil, List.nil_append]
          rw [show rustLinesAux (joinLines (l2 :: ls2)) [] = rustLines (joinLines (l2 :: ls2))
                from rfl]
          rw [ih (fun x hx => hmem x (List.mem_cons_of_mem l hx))
              (by rwa [List.getLast?_cons_cons] at hlast)]

theorem rustLinesAux_no_newline_mem :
    ∀ (s acc : Str), '\n' ∉ acc → ∀ l ∈ rustLinesAux s acc, '\n' ∉ l := by
  intro s
  induction s with
  | nil =>
      intro acc hacc l hl
      rw [rustLinesAux_nil] at hl
      by_cases h : acc = []
      · rw [if_pos h] at hl; simp at hl
      · rw [if_neg h, List.mem_singleton] at hl
        subst hl
        simpa using hacc
  | cons c rest ih =>
      intro acc hacc l hl
      rw [rustLinesAux_cons] at hl
      by_cases hc : c = '\n'
      · rw [if_pos hc] at hl
        rcases List.mem_cons.1 hl with rfl | hl
        · by_cases hh : acc.head? = some '\r'
          · rw [if_pos hh]
            intro hx
            exact hacc (List.tail_subset acc (List.mem_reverse.1 hx))
          · rw [if_neg hh]
            intro hx
            exact hacc (List.mem_reverse.1 hx)
        · exact ih [] (by simp) l hl
      · rw [if_neg hc] at hl
        refine ih (c :: acc) ?_ l hl
        intro hx
        rcases List.mem_cons.1 hx with h | h
        · exact hc h.symm
        · exact hacc h

theorem rustLinesAux_mem_subset :
    ∀ (s acc l : Str), l ∈ rustLinesAux s acc → ∀ c ∈ l, c ∈ s ∨ c ∈ acc := by
  intro s
  induction s with
  | nil =>
      intro acc l hl c hc
      rw [rustLinesAux_nil] at hl
      by_cases h : acc = []
      · rw [if_pos h] at hl; simp at hl
      · rw [if_neg h, List.mem_singleton] at hl
        subst hl
        exact Or.inr (List.mem_reverse.1 hc)
  | cons d rest ih =>
      intro acc l hl c hc
      rw [rustLinesAux_cons] at hl
      by_cases hd : d = '\n'
      · rw [if_pos hd] at hl
        rcases List.mem_cons.1 hl with rfl | hl
        · by_cases hh : acc.head? = some '\r'
          · rw [if_pos hh] at hc
            exact Or.inr (List.tail_subset acc (List.mem_reverse.1 hc))
          · rw [if_neg hh] at hc
            exact Or.inr (List.mem_reverse.1 hc)
        · rcases ih [] l hl c hc with h | h
          · exact Or.inl (List.mem_cons_of_mem d h)
          · simp at h
      · rw [if_neg hd] at hl
        rcases ih (d :: acc) l hl c hc with h | h
        · exact Or.inl (List.mem_cons_of_mem d h)
        · rcases List.mem_cons.1 h with rfl | h
          · exact Or.inl (List.mem_cons_self c rest)
          · exact Or.inr h

theorem rustLinesAux_ne_nil :
    ∀ (s acc : Str), (s ≠ [] ∨ acc ≠ []) → rustLinesAux s acc ≠ [] := by
  intro s
  induction s with
  | nil =>
      intro acc h
      rcases h with h | h
      · exact absurd rfl h
      · rw [rustLinesAux_nil, if_neg h]
        exact List.cons_ne_nil _ _
  | cons c rest ih =>
      intro acc _
      rw [rustLinesAux_cons]
      by_cases hc : c = '\n'
      · rw [if_pos hc]
        exact List.cons_ne_nil _ _
      · rw [if_neg hc]
        exact ih (c :: acc) (Or.inr (List.cons_ne_nil c acc))

theorem rustLinesAux_last_ne_nil :
    ∀ (s acc : Str), s.getLast? ≠ some '\n' →
      ∀ l, (rustLinesAux s acc).getLast? = some l → l ≠ [] := by
  intro s
  induction s with
  | nil =>
      intro acc _ l hl
      rw [rustLinesAux_nil] at hl
      by_cases h : acc = []
      · rw [if_pos h] at hl; simp at hl
      · rw [if_neg h] at hl
        have : acc.reverse = l := by simpa using hl
        subst this
        simpa [List.reverse_eq_nil_iff] using h
  | cons c rest ih =>
      intro acc h1 l hl
      cases rest with
      | nil =>
          have hc : c ≠ '\n' := by simpa using h1
          rw [rustLinesAux_cons, if_neg hc, rustLinesAux_nil,
              if_neg (List.cons_ne_nil c acc)] at hl
          have : acc.reverse ++ [c] = l := by simpa using hl
          subst this
          simp
      | cons d rest2 =>
          have h1' : (d :: rest2).getLast? ≠ some '\n' := by
            rwa [List.getLast?_cons_cons] at h1
          rw [rustLinesAux_cons] at hl
          by_cases hc : c = '\n'
          · rw [if_pos hc] at hl
            have hne := rustLinesAux_ne_nil (d :: rest2) []
              (Or.inl (List.cons_ne_nil d rest2))
            cases hR : rustLinesAux (d :: rest2) [] with
            | nil => exact absurd hR hne
            | cons a R2 =>
                rw [hR, List.getLast?_cons_cons] at hl
                refine ih [] h1' l ?_
                rw [hR]
                exact hl
          · rw [if_neg hc] at hl
            exact ih (c :: acc) h1' l hl

theorem compactLines_ne_nil (st : FenceState) (ls : List Str) (h : ls ≠ []) :
    compactLines st ls ≠ [] := by
  cases ls with
  | nil => exact absurd rfl h
  | cons l ls2 =>
      rw [compactLines_cons]
      exact List.cons_ne_nil _ _

theorem compactLines_last_ne_nil :
    ∀ (L : List Str) (st : FenceState),
      (∀ l, L.getLast? = some l → l ≠ []) →
      ∀ l2, (compactLines st L).getLast? = some l2 → l2 ≠ [] := by
  intro L
  induction L with
  | nil => intro st _ l2 hl2; simp [compactLines] at hl2
  | cons l ls ih =>
      intro st hL l2 hl2
      cases ls with
      | nil =>
          rw [compactLines_cons] at hl2
          have : (compactStep st l).2 = l2 := by
            simpa [compactLines] using hl2
          subst this
          rcases compactStep_table_cases st l with h | ⟨_, heq⟩
          · rw [h]
            exact hL l (by simp)
          · rw [heq]
            exact List.cons_ne_nil _ _
      | cons l3 ls3 =>
          rw [compactLines_cons] at hl2
          have hne := compactLines_ne_nil (compactStep st l).1 (l3 :: ls3)
            (List.cons_ne_nil l3 ls3)
          cases hR : compactLines (compactStep st l).1 (l3 :: ls3) with
          | nil => exact absurd hR hne
          | cons a R2 =>
              rw [hR, List.getLast?_cons_cons] at hl2
              refine ih (compactStep st l).1
                (fun x hx => hL x (by rwa [List.getLast?_cons_cons])) l2 ?_
              rw [hR]
              exact hl2

/-- Claim C4 counterexample: `compact` is not idempotent: for
`x = "ab\r\r\nc\n\n"`, `compact(x) = "ab\r\nc\n"` but
`compact(compact(x)) = "ab\nc"` — a second pass strips the CR that ended up
before the rejoined newline, and drops the trailing newline left by the
trailing empty line. -/
theorem compact_idempotent_counterexample :
    compact_markdown (compact_markdown ("ab\r\r\nc\n\n".toList))
      ≠ compact_markdown ("ab\r\r\nc\n\n".toList) := by
  decide

/-- Claim C4 amended: `compact(compact(x)) = compact(x)` for every `x` that
contains no carriage return and does not end in a newline (otherwise the
join/split round trip of the second pass strips a CR fused before a rejoined
newline, or drops the trailing empty line's terminator). -/
theorem compact_idempotent (x : Str) (h1 : '\r' ∉ x) (h2 : x.getLast? ≠ some '\n') :
    compact_markdown (compact_markdown x) = compact_markdown x := by
  have hmem : ∀ l ∈ compactLines fenceInit (rustLines x), '\n' ∉ l ∧ '\r' ∉ l := by
    intro l hl
    constructor
    · exact compactLines_no_char '\n' (by decide) (rustLines x) fenceInit
        (fun y hy => rustLinesAux_no_newline_mem x [] (by simp) y hy) l hl
    · refine compactLines_no_char '\r' (by decide) (rustLines x) fenceInit ?_ l hl
      intro y hy hmem
      rcases rustLinesAux_mem_subset x [] y hy '\r' hmem with h | h
      · exact h1 h
      · simp at h
  have hlast : (compactLines fenceInit (rustLines x)).getLast? ≠ some [] := by
    intro hx
    exact compactLines_last_ne_nil (rustLines x) fenceInit
      (fun l hl => rustLinesAux_last_ne_nil x [] h2 l hl) [] hx rfl
  show compact_markdown (joinLines (compactLines fenceInit (rustLines x)))
      = compact_markdown x
  unfold compact_markdown
  rw [rustLines_joinLines _ hmem hlast, compactLines_idem]

theorem compact_idempotent_witness :
    ('\r' ∉ "| a  | b |\n| --- | --: |\ntext".toList) ∧
    (("| a  | b |\n| --- | --: |\ntext".toList : Str).getLast? ≠ some '\n') ∧
    compact_markdown (compact_markdown ("| a  | b |\n| --- | --: |\ntext".toList))
      = compact_markdown ("| a  | b |\n| --- | --: |\ntext".toList) :=
  ⟨by decide, by decide, compact_idempotent _ (by decide) (by decide)⟩

/-! ## Adequacy of the resolver loop's fuel -/

theorem findLinkOpen_le :
    ∀ (md : Str) (rel : Nat), findLinkOpen md = some rel → rel + 2 ≤ md.length := by
  intro md
  induction md with
  | nil => intro rel h; simp [findLinkOpen] at h
  | cons c rest ih =>
      intro rel h
      rw [findLinkOpen] at h
      by_cases hc : c = ']' ∧ rest.head? = some '('
      · rw [if_pos hc] at h
        have hrel : rel = 0 := by simpa using h.symm
        subst hrel
        have hne : rest ≠ [] := by
          intro hh
          rw [hh] at hc
          simp at hc
        cases rest with
        | nil => exact absurd rfl hne
        | cons d rest2 => simp [List.length_cons]
      · rw [if_neg hc] at h
        cases hfo : findLinkOpen rest with
        | none => rw [hfo] at h; simp at h
        | some r =>
            rw [hfo] at h
            have hr : r + 1 = rel := by simpa using h
            have := ih r hfo
            rw [List.length_cons]
            omega

theorem resolveLoopF_congr :
    ∀ (n f1 f2 : Nat) (join : Str → Option Str) (md : Str),
      md.length ≤ n → md.length < f1 → md.length < f2 →
      resolveLoopF f1 join md = resolveLoopF f2 join md := by
  intro n
  induction n with
  | zero =>
      intro f1 f2 join md hn h1 h2
      have hmd : md = [] := List.eq_nil_of_length_eq_zero (Nat.le_zero.1 hn)
      subst hmd
      obtain ⟨a, rfl⟩ : ∃ a, f1 = a + 1 := ⟨f1 - 1, by omega⟩
      obtain ⟨b, rfl⟩ : ∃ b, f2 = b + 1 := ⟨f2 - 1, by omega⟩
      rfl
  | succ n ih =>
      intro f1 f2 join md hn h1 h2
      obtain ⟨a, rfl⟩ : ∃ a, f1 = a + 1 := ⟨f1 - 1, by omega⟩
      obtain ⟨b, rfl⟩ : ∃ b, f2 = b + 1 := ⟨f2 - 1, by omega⟩
      rw [resolveLoopF]
      rw [resolveLoopF]
      cases hfo : findLinkOpen md with
      | none => rfl
      | some rel =>
          cases hfc : find_link_close_paren (md.drop (rel + 2)) with
          | none => simp only [hfc]
          | some close =>
              have hrlen := findLinkOpen_le md rel hfo
              have hrest : ((md.drop (rel + 2)).drop (close + 1)).length ≤ n ∧
                  ((md.drop (rel + 2)).drop (close + 1)).length < a ∧
                  ((md.drop (rel + 2)).drop (close + 1)).length < b := by
                simp only [List.length_drop]
                omega
              have hrec : resolveLoopF a join ((md.drop (rel + 2)).drop (close + 1))
                  = resolveLoopF b join ((md.drop (rel + 2)).drop (close + 1)) :=
                ih a b join _ hrest.1 hrest.2.1 hrest.2.2
              simp only [hfo, hfc, hrec]

/-- Any fuel strictly above `md.length` yields the same scan result as
`resolveLoop`, so the fuel-exhausted branch of `resolveLoopF` is
unreachable for the fuel `resolveLoop` supplies: the loop is a faithful
model of the unbounded Rust loop. -/
theorem resolveLoopF_fuel_adequate (fuel : Nat) (join : Str → Option Str) (md : Str)
    (h : md.length < fuel) :
    resolveLoopF fuel join md = resolveLoop join md :=
  resolveLoopF_congr md.length fuel (md.length + 1) join md (Nat.le_refl _) h
    (Nat.lt_succ_self _)
